import Mathlib

/-!
Verification of the Ip-geo-API server (src/main.go): a shallow embedding of
its range index, CSV loading loop, address normalization and lookup handler,
together with theorems settling the specification's claims about them.
-/

/-- Mirrors the Go struct `IpAddressRange` (main.go:118-122): `start` and `end`
are `*big.Int` bounds (embedded as `Int`), `country` the third CSV field. -/
structure IpAddressRange where
  start : Int
  «end» : Int
  country : String
deriving DecidableEq, Repr

instance : Inhabited IpAddressRange := ⟨⟨0, 0, ""⟩⟩

/-- Go `sort.Search(n, f)` (called at main.go:215): binary search for the
smallest index in `[0, n)` at which `f` holds, returning `n` when none does.
The Go `for i < j` loop is embedded with a fuel argument; `j - i` shrinks at
every iteration, so fuel `n` always suffices (see `searchGo_spec`). -/
def searchGo (f : Nat → Bool) : Nat → Nat → Nat → Nat
  | 0, i, _ => i
  | fuel + 1, i, j =>
    if i < j then
      let h := (i + j) / 2
      if f h then searchGo f fuel i h else searchGo f fuel (h + 1) j
    else i

/-- `sort.Search` entry point: search over `[0, n)` with fuel `n`. -/
def sortSearch (n : Nat) (f : Nat → Bool) : Nat := searchGo f n 0 n

/-- The lookup performed by the `GET /getIpInfo` handler (main.go:215-222):
upper-bound search on `start`, then the guarded hit test
`idx > 0 && arr[idx-1].end.Cmp(ipNum) >= 0 && ipNum.Sign() != 0`, returning
the matched range's country on a hit and nothing otherwise. -/
def resolve (arr : List IpAddressRange) (ipNum : Int) : Option String :=
  let idx := sortSearch arr.length (fun i => decide ((arr.getD i default).start > ipNum))
  if 0 < idx ∧ (arr.getD (idx - 1) default).«end» ≥ ipNum ∧ Int.sign ipNum ≠ 0 then
    some (arr.getD (idx - 1) default).country
  else
    none

/-- Specification-side resolver, written from the spec's words (§4.4 steps
1-4): sentinel/empty check, lowest position whose `start` is strictly greater
than the query, first-position miss, inclusive `end` test on the range
immediately before. Used to compare `resolve` against the spec. -/
def resolveSpec (arr : List IpAddressRange) (q : Int) : Option String :=
  if q = 0 ∨ arr = [] then none
  else
    let p := arr.findIdx (fun rg => decide (rg.start > q))
    if p = 0 then none
    else if q ≤ (arr.getD (p - 1) default).«end» then some (arr.getD (p - 1) default).country
    else none

/-- Model of a parsed `net.IP` as the handler uses it (main.go:205-213):
`v4` is the case `addr.To4() != nil` (the four octets To4 yields), `v6` the
case where the 16-byte slice is handed to `big.Int.SetBytes`. -/
inductive NetIP where
  | v4 (b0 b1 b2 b3 : Nat)
  | v6 (bytes : List Nat)

/-- `binary.BigEndian.Uint32(b)` from encoding/binary, as called at
main.go:210: `uint32(b[3]) | uint32(b[2])<<8 | uint32(b[1])<<16 |
uint32(b[0])<<24`, a `uint32` (hence the final `% 2^32`). -/
def beUint32 (b0 b1 b2 b3 : Nat) : Nat :=
  (b3 ||| b2 <<< 8 ||| b1 <<< 16 ||| b0 <<< 24) % 2 ^ 32

/-- `big.Int.SetBytes(buf)` (main.go:212): interpret a byte slice as an
unsigned big-endian integer. -/
def setBytes (bs : List Nat) : Nat := bs.foldl (fun acc b => acc * 256 + b) 0

/-- Address normalization of main.go:207-213: v4 addresses via
`SetUint64(uint64(BigEndian.Uint32(To4)))`, everything else via `SetBytes`. -/
def ipNumOf : NetIP → Nat
  | NetIP.v4 b0 b1 b2 b3 => beUint32 b0 b1 b2 b3
  | NetIP.v6 bs => setBytes bs

/-- Specification-side big-endian value of a byte string: the leading byte is
weighted by `256 ^ (length of the rest)`, i.e. `∑ bs[i] * 256^(n-1-i)`. -/
def beVal : List Nat → Nat
  | [] => 0
  | b :: bs => b * 256 ^ bs.length + beVal bs

/-- Mirrors the Go struct `IpAddress` (main.go:161-164): a possibly-nil
address string and the family flag. -/
structure IpAddress where
  ip_addr : Option String
  ip_v6 : Bool
deriving DecidableEq, Repr

/-- `parseIpAddress` (main.go:166-178). The two go-playground/validator
checks (`ip4_addr`, `ip6_addr`) are external library calls, passed in as
boolean validators. -/
def parseIpAddress (ip4Valid ip6Valid : String → Bool) (rawIpAddr : String) : Option IpAddress :=
  if ip4Valid rawIpAddr then some ⟨some rawIpAddr, false⟩
  else if ip6Valid rawIpAddr then some ⟨some rawIpAddr, true⟩
  else none

/-- Mirrors the Go struct `ApiResponse` (main.go:180-184) with the embedded
`IpAddress` fields flattened. -/
structure ApiResponse where
  ok : Bool
  country : Option String
  ip_addr : Option String
  ip_v6 : Bool
deriving DecidableEq, Repr

/-- The `ApiResponse{Ok: false}` literal serialized on every non-hit path
(main.go:225): country and address nil, family flag at its zero value. -/
def notFoundResponse : ApiResponse := ⟨false, none, none, false⟩

/-- The `GET /getIpInfo` handler body (main.go:202-226). `net.ParseIP` is an
external stdlib call, passed in as `parseIP`; every failure path falls
through to `notFoundResponse`. -/
def getIpInfo (arr : List IpAddressRange) (ip4Valid ip6Valid : String → Bool)
    (parseIP : String → Option NetIP) (addrParam : String) : ApiResponse :=
  match parseIpAddress ip4Valid ip6Valid addrParam with
  | some ipAddr =>
    match ipAddr.ip_addr with
    | some s =>
      match parseIP s with
      | some addr =>
        match resolve arr (Int.ofNat (ipNumOf addr)) with
        | some c => ⟨true, some c, ipAddr.ip_addr, ipAddr.ip_v6⟩
        | none => notFoundResponse
      | none => notFoundResponse
    | none => notFoundResponse
  | none => notFoundResponse

/-- Digit run of `big.Int.SetString(s, 10)`: consume decimal digits,
accumulating the value; any non-digit character fails the whole parse. -/
def decDigitsVal : List Char → Nat → Option Nat
  | [], acc => some acc
  | c :: cs, acc => if c.isDigit then decDigitsVal cs (acc * 10 + (c.toNat - 48)) else none

/-- `big.Int.SetString(s, 10)` (main.go:142,146): an optional sign followed by
at least one decimal digit, the entire string consumed; returns `none`
exactly when Go returns `ok == false`. -/
def setString10 (s : String) : Option Int :=
  match s.data with
  | [] => none
  | '+' :: cs => if cs = [] then none else (decDigitsVal cs 0).map (fun n => (n : Int))
  | '-' :: cs => if cs = [] then none else (decDigitsVal cs 0).map (fun n => -(n : Int))
  | cs => (decDigitsVal cs 0).map (fun n => (n : Int))

/-- The body of `loadCsv`'s per-file read loop (main.go:136-151) over a stream
of read results: a `none` entry is `r.Read()` returning an error (the loop
`break`s, keeping what was accumulated); a `some record` entry is a parsed CSV
record. The outer `Option` is `none` exactly when the Go code would panic with
an out-of-range `rec[i]` access. -/
def readLoop : List (Option (List String)) → List IpAddressRange → Option (List IpAddressRange)
  | [], acc => some acc
  | none :: _, acc => some acc
  | some record :: rest, acc =>
    match record.get? 0 with
    | none => none
    | some f0 =>
      match setString10 f0 with
      | none => readLoop rest acc
      | some s =>
        match record.get? 1 with
        | none => none
        | some f1 =>
          match setString10 f1 with
          | none => readLoop rest acc
          | some e =>
            match record.get? 2 with
            | none => none
            | some c => readLoop rest (acc ++ [⟨s, e, c⟩])

/-- Per-record outcome of the read loop on a record that is long enough: the
range the record contributes, or `none` when one of the first two fields fails
`SetString` and the record is skipped. -/
def recordToRange (record : List String) : Option IpAddressRange :=
  match setString10 (record.getD 0 "") with
  | none => none
  | some s =>
    match setString10 (record.getD 1 "") with
    | none => none
    | some e => some ⟨s, e, record.getD 2 ""⟩

/-- The encoding/csv field-count rule as `loadCsv`'s reader sees it: the first
record fixes the expected field count, and every later row whose count differs
makes `Read` return `ErrFieldCount`, i.e. a `none` entry in the stream. -/
def csvStream (rows : List (List String)) : List (Option (List String)) :=
  match rows with
  | [] => []
  | r :: rs => some r :: rs.map (fun x => if x.length = r.length then some x else none)

/-- Loop invariant of Go's `sort.Search`, for an arbitrary predicate: the
returned index stays within `[i, j]`, the predicate holds at it when it is
below `j`, and fails just before it when it is above `i`. -/
theorem searchGo_spec (f : Nat → Bool) :
    ∀ (fuel i j : Nat), j - i ≤ fuel → i ≤ j →
      i ≤ searchGo f fuel i j ∧ searchGo f fuel i j ≤ j ∧
      (searchGo f fuel i j < j → f (searchGo f fuel i j) = true) ∧
      (i < searchGo f fuel i j → f (searchGo f fuel i j - 1) = false) := by
  intro fuel
  induction fuel with
  | zero =>
    intro i j hf hij
    have hij2 : i = j := by omega
    subst hij2
    simp [searchGo]
  | succ fuel ih =>
    intro i j hf hij
    by_cases hlt : i < j
    · have hstep : searchGo f (fuel + 1) i j =
          (if f ((i + j) / 2) then searchGo f fuel i ((i + j) / 2)
           else searchGo f fuel ((i + j) / 2 + 1) j) := by
        simp [searchGo, hlt]
      by_cases hfm : f ((i + j) / 2) = true
      · rw [hstep, if_pos hfm]
        have hmain := ih i ((i + j) / 2) (by omega) (by omega)
        rcases hmain with ⟨h1, h2, h3, h4⟩
        refine ⟨h1, by omega, ?_, h4⟩
        intro hrj
        by_cases hrm : searchGo f fuel i ((i + j) / 2) < (i + j) / 2
        · exact h3 hrm
        · have heq : searchGo f fuel i ((i + j) / 2) = (i + j) / 2 := by omega
          rw [heq]
          exact hfm
      · have hfm2 : f ((i + j) / 2) = false := by
          cases hb : f ((i + j) / 2)
          · rfl
          · exact absurd hb hfm
        rw [hstep, if_neg (by simp [hfm2])]
        have hmain := ih ((i + j) / 2 + 1) j (by omega) (by omega)
        rcases hmain with ⟨h1, h2, h3, h4⟩
        refine ⟨by omega, h2, h3, ?_⟩
        intro hir
        by_cases hrm : (i + j) / 2 + 1 < searchGo f fuel ((i + j) / 2 + 1) j
        · exact h4 hrm
        · have heq : searchGo f fuel ((i + j) / 2 + 1) j = (i + j) / 2 + 1 := by omega
          rw [heq]
          simpa using hfm2
    · have hij2 : i = j := by omega
      subst hij2
      simp [searchGo]

/-- `sortSearch n f` lies in `[0, n]`, satisfies `f` when below `n`, and has
`f` false at its immediate predecessor when positive. -/
theorem sortSearch_spec (n : Nat) (f : Nat → Bool) :
    sortSearch n f ≤ n ∧ (sortSearch n f < n → f (sortSearch n f) = true) ∧
    (0 < sortSearch n f → f (sortSearch n f - 1) = false) := by
  have hmain := searchGo_spec f n 0 n (by omega) (by omega)
  exact ⟨hmain.2.1, hmain.2.2.1, hmain.2.2.2⟩

/-- `List.getD` agrees with `List.get` inside the bounds. -/
theorem getD_eq_get_of_lt (l : List IpAddressRange) (d : IpAddressRange) (i : Nat)
    (h : i < l.length) : l.getD i d = l.get ⟨i, h⟩ := by
  simp [List.getD_eq_getElem?_getD, List.getElem?_eq_getElem h, List.get_eq_getElem]

/-- Claim C3: a query whose normalized value is 0 always resolves to
not-found, for every index — including one whose first stored range begins at
0 — because the hit condition requires `ipNum.Sign() != 0`. -/
theorem resolve_zero_query (arr : List IpAddressRange) : resolve arr 0 = none := by
  simp [resolve]

/-- Claim C4: against the empty index every query resolves to not-found — the
bare lookup answers `none` for every query integer, and the full handler
answers the `ok: false` response for every address string, valid or not,
under arbitrary external validators and parser. -/
theorem empty_index_not_found (q : Int) (ip4Valid ip6Valid : String → Bool)
    (parseIP : String → Option NetIP) (s : String) :
    resolve [] q = none ∧ getIpInfo [] ip4Valid ip6Valid parseIP s = notFoundResponse := by
  have hres : ∀ p : Int, resolve [] p = none := by
    intro p
    simp [resolve, sortSearch, searchGo]
  refine ⟨hres q, ?_⟩
  unfold getIpInfo
  cases hpa : parseIpAddress ip4Valid ip6Valid s with
  | none => rfl
  | some ipAddr =>
    cases hia : ipAddr.ip_addr with
    | none => simp [hia]
    | some str =>
      cases hpi : parseIP str with
      | none => simp [hia, hpi]
      | some addr => simp [hia, hpi, hres]

/-- Claim C8: whenever `resolve` answers success, the matched range actually
contains the query, `start ≤ q ≤ end` — for every index contents whatsoever,
including unsorted, overlapping, duplicated or reversed ranges, since a
positive search index forces `start ≤ q` at its predecessor and the hit test
checks the `end` bound explicitly. -/
theorem resolve_hit_contains (arr : List IpAddressRange) (q : Int) (c : String)
    (hres : resolve arr q = some c) :
    ∃ i, ∃ h : i < arr.length, (arr.get ⟨i, h⟩).start ≤ q ∧ q ≤ (arr.get ⟨i, h⟩).«end» ∧
      (arr.get ⟨i, h⟩).country = c := by
  have hspec := sortSearch_spec arr.length
    (fun i => decide ((arr.getD i default).start > q))
  simp only [resolve] at hres
  split at hres
  case isFalse => exact absurd hres (by simp)
  case isTrue hcond =>
    obtain ⟨hpos, hend, _⟩ := hcond
    have hidxle := hspec.1
    have hfalse := hspec.2.2 hpos
    have hlt : sortSearch arr.length (fun i => decide ((arr.getD i default).start > q)) - 1 <
        arr.length := by omega
    refine ⟨_, hlt, ?_, ?_, ?_⟩
    · have hnot := of_decide_eq_false hfalse
      rw [← getD_eq_get_of_lt arr default _ hlt]
      omega
    · rw [← getD_eq_get_of_lt arr default _ hlt]
      exact hend
    · rw [← getD_eq_get_of_lt arr default _ hlt]
      exact Option.some.inj hres

/-- Witness for claim C8 at a concrete hit: the one-range index `[1,5] → US`
and query 3. -/
theorem resolve_hit_contains_witness :
    ∃ i, ∃ h : i < ([⟨1, 5, "US"⟩] : List IpAddressRange).length,
      (([⟨1, 5, "US"⟩] : List IpAddressRange).get ⟨i, h⟩).start ≤ 3 ∧
      3 ≤ (([⟨1, 5, "US"⟩] : List IpAddressRange).get ⟨i, h⟩).«end» ∧
      (([⟨1, 5, "US"⟩] : List IpAddressRange).get ⟨i, h⟩).country = "US" :=
  resolve_hit_contains [⟨1, 5, "US"⟩] 3 "US" (by decide)

/-- Claim C10: record parsing is not total — on a file whose first row is the
two numeric fields `1,2`, the loading loop reaches the unchecked `rec[2]`
access and panics (modeled by the `none` outcome) instead of skipping the
record. -/
theorem readLoop_short_first_row_panics : readLoop [some ["1", "2"]] [] = none := by decide

/-- When the predicate is monotone on `[0, n)`, `sortSearch` is a lower bound
for every true position: everything strictly below it is false. -/
theorem sortSearch_lowest (n : Nat) (f : Nat → Bool)
    (hmono : ∀ k l, k ≤ l → l < n → f k = true → f l = true) :
    ∀ k, k < sortSearch n f → f k = false := by
  intro k hk
  have hspec := sortSearch_spec n f
  cases hb : f k with
  | false => rfl
  | true =>
    exfalso
    have hr1 : 0 < sortSearch n f := by omega
    have hfalse := hspec.2.2 hr1
    have htrue : f (sortSearch n f - 1) = true :=
      hmono k (sortSearch n f - 1) (by omega) (by omega) hb
    rw [hfalse] at htrue
    exact Bool.noConfusion htrue

/-- `List.findIdx` is determined by an all-false prefix and a true entry (or
the end of the list). -/
theorem findIdx_eq_of (p : IpAddressRange → Bool) :
    ∀ (l : List IpAddressRange) (j : Nat), j ≤ l.length →
      (∀ k, k < j → p (l.getD k default) = false) →
      (j < l.length → p (l.getD j default) = true) →
      l.findIdx p = j := by
  intro l
  induction l with
  | nil =>
    intro j hj _ _
    simp only [List.length_nil, Nat.le_zero] at hj
    subst hj
    rfl
  | cons a t ih =>
    intro j hj hbefore hat
    cases j with
    | zero =>
      have hpa : p a = true := by
        have := hat (by simp)
        simpa using this
      simp [List.findIdx_cons, hpa]
    | succ j2 =>
      have hpa : p a = false := by
        have := hbefore 0 (by omega)
        simpa using this
      rw [List.findIdx_cons, hpa]
      simp only [cond_false]
      have hrec : t.findIdx p = j2 := by
        apply ih j2 (by simpa using hj)
        · intro k hk
          have := hbefore (k + 1) (by omega)
          simpa using this
        · intro hlt
          have := hat (by simpa using Nat.succ_lt_succ hlt)
          simpa using this
      omega

/-- Claim C1: on an index sorted ascending by `start` with pairwise
non-overlapping ranges, for a query with nonzero normalized value the
handler's lookup agrees with the spec's resolver: the binary search finds the
lowest position whose `start` is strictly greater than the query (the
`findIdx` equation); if that position is the first it answers not-found, and
otherwise it answers the country of the range immediately before exactly when
the query is at most that range's inclusive `end` — so queries below the
first `start` or in a gap between ranges always miss. -/
theorem resolve_matches_spec (arr : List IpAddressRange) (q : Int)
    (hsorted : List.Pairwise (fun a b => a.start ≤ b.start) arr)
    (hdisj : List.Pairwise (fun a b => a.«end» < b.start ∨ b.«end» < a.start) arr)
    (hq : q ≠ 0) :
    resolve arr q = resolveSpec arr q ∧
    sortSearch arr.length (fun i => decide ((arr.getD i default).start > q)) =
      arr.findIdx (fun rg => decide (rg.start > q)) := by
  have hspec := sortSearch_spec arr.length (fun i => decide ((arr.getD i default).start > q))
  have hmono : ∀ k l, k ≤ l → l < arr.length →
      (fun i => decide ((arr.getD i default).start > q)) k = true →
      (fun i => decide ((arr.getD i default).start > q)) l = true := by
    intro k l hkl hl hk
    simp only [decide_eq_true_eq] at hk ⊢
    rcases Nat.eq_or_lt_of_le hkl with heq | hlt
    · subst heq
      exact hk
    · have hkn : k < arr.length := Nat.lt_trans hlt hl
      have hle : (arr.get ⟨k, hkn⟩).start ≤ (arr.get ⟨l, hl⟩).start :=
        List.pairwise_iff_get.mp hsorted ⟨k, hkn⟩ ⟨l, hl⟩ (Fin.mk_lt_mk.mpr hlt)
      rw [getD_eq_get_of_lt arr default k hkn] at hk
      rw [getD_eq_get_of_lt arr default l hl]
      omega
  have hall := sortSearch_lowest arr.length _ hmono
  have hfind : arr.findIdx (fun rg => decide (rg.start > q)) =
      sortSearch arr.length (fun i => decide ((arr.getD i default).start > q)) := by
    apply findIdx_eq_of
    · exact hspec.1
    · intro k hk
      exact hall k hk
    · intro hlt
      exact hspec.2.1 hlt
  refine ⟨?_, hfind.symm⟩
  by_cases harr : arr = []
  · subst harr
    simp [resolve, resolveSpec, sortSearch, searchGo]
  · have hcondspec : ¬(q = 0 ∨ arr = []) := by
      rintro (h1 | h2)
      · exact hq h1
      · exact harr h2
    have hsign : Int.sign q ≠ 0 := fun h => hq (Int.sign_eq_zero_iff_zero.mp h)
    simp only [resolve, resolveSpec]
    rw [if_neg hcondspec, hfind]
    by_cases hr0 : sortSearch arr.length (fun i => decide ((arr.getD i default).start > q)) = 0
    · rw [if_pos hr0]
      split
      next h =>
        exfalso
        have hpos := h.1
        rw [hr0] at hpos
        omega
      next h => rfl
    · rw [if_neg hr0]
      by_cases hle : q ≤ (arr.getD (sortSearch arr.length
          (fun i => decide ((arr.getD i default).start > q)) - 1) default).«end»
      · rw [if_pos hle, if_pos ⟨Nat.pos_of_ne_zero hr0, hle, hsign⟩]
      · rw [if_neg hle, if_neg (fun h => hle h.2.1)]

/-- Witness for claim C1: a concrete sorted, disjoint two-range index and the
in-second-range query 15. -/
theorem resolve_matches_spec_witness :
    resolve [⟨1, 5, "US"⟩, ⟨10, 20, "DE"⟩] 15 = resolveSpec [⟨1, 5, "US"⟩, ⟨10, 20, "DE"⟩] 15 ∧
    sortSearch ([⟨1, 5, "US"⟩, ⟨10, 20, "DE"⟩] : List IpAddressRange).length
        (fun i => decide ((([⟨1, 5, "US"⟩, ⟨10, 20, "DE"⟩] : List IpAddressRange).getD i
          default).start > 15)) =
      ([⟨1, 5, "US"⟩, ⟨10, 20, "DE"⟩] : List IpAddressRange).findIdx
        (fun rg => decide (rg.start > 15)) :=
  resolve_matches_spec [⟨1, 5, "US"⟩, ⟨10, 20, "DE"⟩] 15 (by decide) (by decide) (by decide)

/-- Disjoint-bit bitwise-or is addition: `a ||| b <<< n = b <<< n + a` when
`a` fits in `n` bits. -/
theorem lor_shiftLeft_eq_add (a b n : Nat) (ha : a < 2 ^ n) : a ||| b <<< n = b <<< n + a := by
  rw [Nat.shiftLeft_eq, Nat.lor_comm, Nat.mul_comm b (2 ^ n)]
  exact (Nat.mul_add_lt_is_or ha b).symm

/-- The `SetBytes` fold from an arbitrary accumulator. -/
theorem setBytes_foldl (bs : List Nat) :
    ∀ a : Nat, bs.foldl (fun acc b => acc * 256 + b) a = a * 256 ^ bs.length + beVal bs := by
  induction bs with
  | nil =>
    intro a
    simp [beVal]
  | cons b t ih =>
    intro a
    simp only [List.foldl_cons, List.length_cons, beVal]
    rw [ih (a * 256 + b)]
    ring

/-- `SetBytes` computes exactly the spec-side big-endian value. -/
theorem setBytes_eq_beVal (bs : List Nat) : setBytes bs = beVal bs := by
  have hfold := setBytes_foldl bs 0
  simpa [setBytes] using hfold

/-- The big-endian value of a list of bytes is bounded by `256 ^ length`. -/
theorem beVal_lt (bs : List Nat) (h : ∀ b ∈ bs, b < 256) : beVal bs < 256 ^ bs.length := by
  induction bs with
  | nil => simp [beVal]
  | cons b t ih =>
    simp only [beVal, List.length_cons]
    have hb : b < 256 := h b (List.mem_cons_self b t)
    have ht := ih (fun x hx => h x (List.mem_cons_of_mem b hx))
    calc b * 256 ^ t.length + beVal t
        < b * 256 ^ t.length + 256 ^ t.length := Nat.add_lt_add_left ht _
      _ ≤ 255 * 256 ^ t.length + 256 ^ t.length :=
          Nat.add_le_add_right (Nat.mul_le_mul_right _ (by omega)) _
      _ = 256 ^ (t.length + 1) := by ring

/-- Claim C2: normalization is big-endian in both families — a v4 address of
octets `b0.b1.b2.b3` normalizes to the unsigned 32-bit big-endian integer of
its four octets, and a v6 address of 16 bytes normalizes to the unsigned
big-endian 128-bit integer of those bytes. -/
theorem normalization_bigendian :
    (∀ b0 b1 b2 b3 : Nat, b0 < 256 → b1 < 256 → b2 < 256 → b3 < 256 →
      ipNumOf (NetIP.v4 b0 b1 b2 b3) = beVal [b0, b1, b2, b3] ∧
      ipNumOf (NetIP.v4 b0 b1 b2 b3) < 2 ^ 32) ∧
    (∀ bs : List Nat, bs.length = 16 → (∀ b ∈ bs, b < 256) →
      ipNumOf (NetIP.v6 bs) = beVal bs ∧ ipNumOf (NetIP.v6 bs) < 2 ^ 128) := by
  constructor
  · intro b0 b1 b2 b3 h0 h1 h2 h3
    have s1 : b3 ||| b2 <<< 8 = b2 <<< 8 + b3 := lor_shiftLeft_eq_add _ _ _ (by omega)
    have s2 : (b2 <<< 8 + b3) ||| b1 <<< 16 = b1 <<< 16 + (b2 <<< 8 + b3) :=
      lor_shiftLeft_eq_add _ _ _ (by omega)
    have s3 : (b1 <<< 16 + (b2 <<< 8 + b3)) ||| b0 <<< 24 =
        b0 <<< 24 + (b1 <<< 16 + (b2 <<< 8 + b3)) :=
      lor_shiftLeft_eq_add _ _ _ (by omega)
    have hval : ipNumOf (NetIP.v4 b0 b1 b2 b3) = b0 <<< 24 + (b1 <<< 16 + (b2 <<< 8 + b3)) := by
      simp only [ipNumOf, beUint32]
      rw [s1, s2, s3]
      apply Nat.mod_eq_of_lt
      omega
    constructor
    · rw [hval]
      simp only [beVal, List.length_cons, List.length_nil]
      omega
    · rw [hval]
      omega
  · intro bs hlen hbytes
    have heq : ipNumOf (NetIP.v6 bs) = beVal bs := setBytes_eq_beVal bs
    refine ⟨heq, ?_⟩
    rw [heq]
    have hlt := beVal_lt bs hbytes
    rw [hlen] at hlt
    calc beVal bs < 256 ^ 16 := hlt
      _ = 2 ^ 128 := by norm_num

/-- Witness for claim C2: the README's example address `140.82.114.3` and a
concrete 16-byte v6 address. -/
theorem normalization_bigendian_witness :
    (ipNumOf (NetIP.v4 140 82 114 3) = beVal [140, 82, 114, 3] ∧
      ipNumOf (NetIP.v4 140 82 114 3) < 2 ^ 32) ∧
    (ipNumOf (NetIP.v6 [32, 1, 13, 184, 0, 0, 0, 0, 0, 0, 0, 0, 0, 0, 0, 1]) =
        beVal [32, 1, 13, 184, 0, 0, 0, 0, 0, 0, 0, 0, 0, 0, 0, 1] ∧
      ipNumOf (NetIP.v6 [32, 1, 13, 184, 0, 0, 0, 0, 0, 0, 0, 0, 0, 0, 0, 1]) < 2 ^ 128) :=
  ⟨normalization_bigendian.1 140 82 114 3 (by decide) (by decide) (by decide) (by decide),
   normalization_bigendian.2 [32, 1, 13, 184, 0, 0, 0, 0, 0, 0, 0, 0, 0, 0, 0, 1]
     (by decide) (by decide)⟩

/-- Claim C5: the handler is total and never faults — for every input string
and arbitrary external validator/parser behavior the response is either the
fixed `ok: false` object or a success response, and every string the
validators reject (empty, garbage, truncated v6) yields exactly the
`ok: false` object. -/
theorem handler_total_negative (arr : List IpAddressRange) (ip4Valid ip6Valid : String → Bool)
    (parseIP : String → Option NetIP) (s : String) :
    (getIpInfo arr ip4Valid ip6Valid parseIP s = notFoundResponse ∨
      (getIpInfo arr ip4Valid ip6Valid parseIP s).ok = true) ∧
    (parseIpAddress ip4Valid ip6Valid s = none →
      getIpInfo arr ip4Valid ip6Valid parseIP s = notFoundResponse) := by
  constructor
  · unfold getIpInfo
    cases hpa : parseIpAddress ip4Valid ip6Valid s with
    | none => left; rfl
    | some ipAddr =>
      cases hia : ipAddr.ip_addr with
      | none => left; simp [hia]
      | some str =>
        cases hpi : parseIP str with
        | none => left; simp [hia, hpi]
        | some addr =>
          cases hres : resolve arr (Int.ofNat (ipNumOf addr)) with
          | none => left; simp only [hia, hpi]; rw [hres]
          | some c => right; simp only [hia, hpi]; rw [hres]
  · intro hnone
    unfold getIpInfo
    rw [hnone]

/-- Witness for claim C5: the empty address string under validators that
reject everything. -/
theorem handler_total_negative_witness :
    getIpInfo [] (fun _ => false) (fun _ => false) (fun _ => none) "" = notFoundResponse :=
  (handler_total_negative [] (fun _ => false) (fun _ => false) (fun _ => none) "").2 rfl

/-- One step of the read loop on a record of exactly three fields: the record
contributes `recordToRange` of itself (skipped on a parse failure), and the
loop always continues with the remaining records. -/
theorem readLoop_cons3 (a b c : String) (rest : List (Option (List String)))
    (acc : List IpAddressRange) :
    readLoop (some [a, b, c] :: rest) acc =
      match recordToRange [a, b, c] with
      | none => readLoop rest acc
      | some rg => readLoop rest (acc ++ [rg]) := by
  simp only [readLoop, recordToRange, List.get?_cons_zero, List.get?_cons_succ,
    List.getD_cons_zero, List.getD_cons_succ]
  cases setString10 a with
  | none => rfl
  | some s1 =>
    cases setString10 b with
    | none => rfl
    | some e1 => rfl

/-- Claim C7: over any stream of three-field records, the read loop never
faults and produces exactly the ranges of the records whose first two fields
parse, in order — a record with an unparseable bound is silently skipped
while all remaining records are still processed, and a fully-parsed record
contributes exactly one range whose country is the third field verbatim. -/
theorem readLoop_three_field (recs : List (List String)) (acc : List IpAddressRange)
    (h : ∀ r ∈ recs, r.length = 3) :
    readLoop (recs.map some) acc = some (acc ++ recs.filterMap recordToRange) := by
  induction recs generalizing acc with
  | nil => simp [readLoop]
  | cons r t ih =>
    have hr : r.length = 3 := h r (List.mem_cons_self r t)
    have ht : ∀ y ∈ t, y.length = 3 := fun y hy => h y (List.mem_cons_of_mem r hy)
    obtain ⟨a, b, c, rfl⟩ : ∃ a b c, r = [a, b, c] := by
      cases r with
      | nil => exfalso; simp only [List.length_nil] at hr; omega
      | cons x1 r1 =>
        cases r1 with
        | nil => exfalso; simp only [List.length_cons, List.length_nil] at hr; omega
        | cons x2 r2 =>
          cases r2 with
          | nil => exfalso; simp only [List.length_cons, List.length_nil] at hr; omega
          | cons x3 r3 =>
            cases r3 with
            | nil => exact ⟨x1, x2, x3, rfl⟩
            | cons x4 r4 =>
              exfalso; simp only [List.length_cons, List.length_nil] at hr; omega
    rw [List.map_cons, readLoop_cons3]
    cases hrr : recordToRange [a, b, c] with
    | none => simp [hrr, ih acc ht, List.filterMap_cons]
    | some rg => simp [hrr, ih (acc ++ [rg]) ht, List.filterMap_cons]

/-- Witness for claim C7: four three-field records, two of which have a
malformed numeric bound. -/
theorem readLoop_three_field_witness :
    readLoop ([["1", "2", "US"], ["x", "3", "DE"], ["4", "y", "FR"],
        ["5", "6", "JP"]].map some) [] =
      some ([] ++ [["1", "2", "US"], ["x", "3", "DE"], ["4", "y", "FR"],
        ["5", "6", "JP"]].filterMap recordToRange) :=
  readLoop_three_field [["1", "2", "US"], ["x", "3", "DE"], ["4", "y", "FR"], ["5", "6", "JP"]]
    [] (by decide)

/-- A read error in the stream ends the file: everything after the error is
discarded, whatever it is. -/
theorem readLoop_break (pre : List (List String)) (post : List (Option (List String)))
    (acc : List IpAddressRange) :
    readLoop (pre.map some ++ none :: post) acc = readLoop (pre.map some) acc := by
  induction pre generalizing acc with
  | nil => simp [readLoop]
  | cons r t ih =>
    cases hg0 : r[0]? with
    | none =>
      simp only [List.map_cons, List.cons_append, readLoop, List.get?_eq_getElem?, hg0]
    | some f0 =>
      cases hs0 : setString10 f0 with
      | none =>
        simp only [List.map_cons, List.cons_append, readLoop, List.get?_eq_getElem?, hg0, hs0]
        exact ih acc
      | some s =>
        cases hg1 : r[1]? with
        | none =>
          simp only [List.map_cons, List.cons_append, readLoop, List.get?_eq_getElem?, hg0,
            hs0, hg1]
        | some f1 =>
          cases hs1 : setString10 f1 with
          | none =>
            simp only [List.map_cons, List.cons_append, readLoop, List.get?_eq_getElem?, hg0,
              hs0, hg1, hs1]
            exact ih acc
          | some e =>
            cases hg2 : r[2]? with
            | none =>
              simp only [List.map_cons, List.cons_append, readLoop, List.get?_eq_getElem?, hg0,
                hs0, hg1, hs1, hg2]
            | some c =>
              simp only [List.map_cons, List.cons_append, readLoop, List.get?_eq_getElem?, hg0,
                hs0, hg1, hs1, hg2]
              exact ih (acc ++ [⟨s, e, c⟩])

/-- Claim C9: a CSV-level read error silently ends the whole file. With first
row `r` fixing the field count, well-formed rows `rs1`, then a row `x` whose
field count differs: the reader stream turns `x` into an error entry, and the
read loop consequently processes exactly `r :: rs1`, discarding `x` and every
record after it instead of skipping only the offending record. -/
theorem csv_error_discards_rest (r : List String) (rs1 : List (List String)) (x : List String)
    (rs2 : List (List String)) (post : List (Option (List String))) (acc : List IpAddressRange)
    (hx : x.length ≠ r.length) (h1 : ∀ y ∈ rs1, y.length = r.length) :
    csvStream (r :: (rs1 ++ x :: rs2)) =
      (r :: rs1).map some ++ none ::
        rs2.map (fun y => if y.length = r.length then some y else none) ∧
    readLoop ((r :: rs1).map some ++ none :: post) acc = readLoop ((r :: rs1).map some) acc := by
  constructor
  · have hfx : (if x.length = r.length then some x else none) = none := if_neg hx
    have hmap : rs1.map (fun y => if y.length = r.length then some y else none) = rs1.map some :=
      List.map_congr_left (fun y hy => if_pos (h1 y hy))
    simp [csvStream, hfx, hmap]
  · exact readLoop_break (r :: rs1) post acc

/-- Witness for claim C9: a four-row file whose third row has two fields
instead of three; the fourth row is discarded with it. -/
theorem csv_error_discards_rest_witness :
    csvStream [["1", "2", "US"], ["3", "4", "DE"], ["5", "6"], ["7", "8", "FR"]] =
      [["1", "2", "US"], ["3", "4", "DE"]].map some ++ none ::
        [["7", "8", "FR"]].map
          (fun y => if y.length = ["1", "2", "US"].length then some y else none) ∧
    readLoop ([["1", "2", "US"], ["3", "4", "DE"]].map some ++ none :: []) [] =
      readLoop ([["1", "2", "US"], ["3", "4", "DE"]].map some) [] :=
  csv_error_discards_rest ["1", "2", "US"] [["3", "4", "DE"]] ["5", "6"] [["7", "8", "FR"]]
    [] [] (by decide) (by decide)
